import Mathlib

/-!
Shallow embedding of the TitanKeys dictionary pipeline
(`tools/dictionaries/extract_ngrams.py`, `tools/dictionaries/merge_dictionaries.py`,
`tools/dictionaries/download_corpora.py`) together with proofs about it.

Python dicts `{"w": ..., "f": ...}` are embedded as the `Entry` structure, where a
missing `"f"` key is `Option.none`.  Python dict-of-counter tables (`defaultdict(int)`)
are embedded as total functions returning the count, with absent keys read as `0`
(exactly what `defaultdict` lookups produce).  Python string primitives
(`str.lower`, `str.strip`, `\w`, `int(...)`) are modelled character by character on the
alphabet relevant to this tooling: ASCII plus the accented vowels the source folds.
-/

set_option maxRecDepth 8000

/-- Models Python `str.lower()` on the relevant alphabet: ASCII letters plus the
uppercase accented vowels appearing in the fold tables of the source. -/
def pyLower (c : Char) : Char :=
  if c = 'À' then 'à'
  else if c = 'È' then 'è'
  else if c = 'É' then 'é'
  else if c = 'Ì' then 'ì'
  else if c = 'Ò' then 'ò'
  else if c = 'Ó' then 'ó'
  else if c = 'Ù' then 'ù'
  else if 'A' ≤ c ∧ c ≤ 'Z' then Char.toLower c
  else c

/-- Whitespace as recognised by Python `str.strip()` / `str.split()` (space, tab,
newline, carriage return on the modelled alphabet). -/
def pySpace (c : Char) : Bool := c.isWhitespace

/-- Models Python `str.strip()`: drop whitespace from both ends. -/
def pyStrip (l : List Char) : List Char :=
  ((l.dropWhile pySpace).reverse.dropWhile pySpace).reverse

/-- The accent fold shared by both `normalize_word` functions: the chain
`word.replace('à','a').replace('è','e').replace('é','e').replace('ì','i')
 .replace('ò','o').replace('ó','o').replace('ù','u')`.
The replaced characters are pairwise distinct from the replacement characters, so the
sequential single-character replaces compose into one character map. -/
def foldAccentChar (c : Char) : Char :=
  if c = 'à' then 'a'
  else if c = 'è' then 'e'
  else if c = 'é' then 'e'
  else if c = 'ì' then 'i'
  else if c = 'ò' then 'o'
  else if c = 'ó' then 'o'
  else if c = 'ù' then 'u'
  else c

/-- The second replace chain in `extract_ngrams.normalize_word`
(`.replace('À','a') ... .replace('Ù','u')`), applied after lowercasing. -/
def foldUpperAccentChar (c : Char) : Char :=
  if c = 'À' then 'a'
  else if c = 'È' then 'e'
  else if c = 'É' then 'e'
  else if c = 'Ì' then 'i'
  else if c = 'Ò' then 'o'
  else if c = 'Ó' then 'o'
  else if c = 'Ù' then 'u'
  else c

/-- The character class of `re.sub(r'[^a-z]', '', word)`: basic lowercase letters. -/
def isLowerAZ (c : Char) : Bool := decide ('a' ≤ c) && decide (c ≤ 'z')

/-- Embedding of a dictionary entry dict `{"w": ..., "f": ...}`.  The word key is
read with `entry.get('w', '')` throughout the source, so a missing word is the empty
string; a missing frequency key is `none`. -/
structure Entry where
  w : String
  f : Option Int
deriving DecidableEq, Repr

deriving instance DecidableEq for Except

/-- `e.get('f', 0)` as used by the merge strategies and the frequency filter. -/
def getF (e : Entry) : Int := e.f.getD 0

namespace MergeDict

/-- `merge_dictionaries.normalize_word`: `word.lower().strip()` followed by the
lowercase accent fold.  Note: this version has no `[^a-z]` strip. -/
def normalize_word (word : String) : String :=
  ⟨(pyStrip (word.data.map pyLower)).map foldAccentChar⟩

/-- Python `max(entries, key=lambda e: e.get('f', 0))` starting from `best`:
the first maximal element wins (a later element replaces `best` only when its key
is strictly greater). -/
def argmaxF (best : Entry) : List Entry → Entry
  | [] => best
  | e :: rest => if getF best < getF e then argmaxF e rest else argmaxF best rest

/-- `merge_max_frequency`.  The source reads `max_entry['f']` by direct indexing,
which raises `KeyError` when the winning entry has no frequency key; that raise is
the `.error` branch. -/
def merge_max_frequency : List Entry → Except String (Option Entry)
  | [] => .ok none
  | e :: rest =>
    match (argmaxF e rest).f with
    | some v => .ok (some ⟨(argmaxF e rest).w, some v⟩)
    | none => .error "KeyError: f"

/-- `sum(e.get('f', 0) for e in entries)`. -/
def sumF (es : List Entry) : Int := (es.map getF).sum

/-- `merge_sum_frequency`. -/
def merge_sum_frequency : List Entry → Except String (Option Entry)
  | [] => .ok none
  | e :: rest => .ok (some ⟨e.w, some (sumF (e :: rest))⟩)

/-- `merge_avg_frequency`: Python `//` is floor division, i.e. `Int.fdiv`. -/
def merge_avg_frequency : List Entry → Except String (Option Entry)
  | [] => .ok none
  | e :: rest =>
    .ok (some ⟨e.w, some (Int.fdiv (sumF (e :: rest)) ((e :: rest).length : Int))⟩)

/-- The default weight list of `merge_weighted_frequency`:
`[0.6] + [0.4 / (len - 1)] * (len - 1) if len > 1 else [1.0]`,
with the decimal literals read exactly as rationals. -/
def defaultWeights (n : Nat) : List ℚ :=
  if 1 < n then (6 / 10 : ℚ) :: List.replicate (n - 1) ((4 / 10 : ℚ) / ((n : ℚ) - 1))
  else [1]

/-- Python `int(x)` on a finite number: truncation toward zero. -/
def intTrunc (q : ℚ) : Int := if 0 ≤ q then ⌊q⌋ else ⌈q⌉

/-- `sum(e.get('f', 0) * w for e, w in zip(entries, weights))`. -/
def weightedSum (es : List Entry) (ws : List ℚ) : ℚ :=
  ((es.zip ws).map (fun p => ((getF p.1 : ℚ) * p.2))).sum

/-- `merge_weighted_frequency` with the default weights. -/
def merge_weighted_frequency : List Entry → Except String (Option Entry)
  | [] => .ok none
  | e :: rest =>
    .ok (some ⟨e.w, some (intTrunc (weightedSum (e :: rest) (defaultWeights (e :: rest).length)))⟩)

/-- `merge_strategies.get(strategy, merge_max_frequency)`: an unknown strategy
string silently falls back to `merge_max_frequency`. -/
def mergeFunc (strategy : String) : List Entry → Except String (Option Entry) :=
  if strategy = "max" then merge_max_frequency
  else if strategy = "sum" then merge_sum_frequency
  else if strategy = "avg" then merge_avg_frequency
  else if strategy = "weighted" then merge_weighted_frequency
  else merge_max_frequency

/-- One step of the grouping loop, acting on the key sequence: an entry whose raw
word is empty (`if not word: continue`) adds no key; otherwise its normalized word is
appended on first appearance. -/
def addKey (acc : List String) (e : Entry) : List String :=
  if e.w = "" then acc
  else if normalize_word e.w ∈ acc then acc
  else acc ++ [normalize_word e.w]

/-- The key sequence of the insertion-ordered `word_groups` dict. -/
def groupKeys (es : List Entry) : List String := es.foldl addKey []

/-- The member list of one `word_groups` bucket, in input order. -/
def groupVal (es : List Entry) (k : String) : List Entry :=
  es.filter (fun e => decide (e.w ≠ "") && decide (normalize_word e.w = k))

/-- The insertion-ordered `word_groups` dict as an association list. -/
def word_groups (es : List Entry) : List (String × List Entry) :=
  (groupKeys es).map (fun k => (k, groupVal es k))

/-- One iteration of the merge loop: multi-member groups go through the strategy,
single-member groups pass through unchanged, and the result is kept only when
`merged.get('f', 0) >= min_frequency`. -/
def resolveGroup (strategy : String) (min_frequency : Int) (g : List Entry) :
    Except String (Option Entry) :=
  match (if 1 < g.length then mergeFunc strategy g else .ok g.head?) with
  | .error msg => .error msg
  | .ok merged =>
    .ok (match merged with
         | some m => if min_frequency ≤ getF m then some m else none
         | none => none)

/-- The `merged_entries` accumulation over the groups, kept entries in group order;
a raised `KeyError` aborts the run at the group that raised it. -/
def mergedEntries (strategy : String) (min_frequency : Int) :
    List (String × List Entry) → Except String (List Entry)
  | [] => .ok []
  | (_, g) :: rest =>
    match resolveGroup strategy min_frequency g with
    | .error msg => .error msg
    | .ok r =>
      match mergedEntries strategy min_frequency rest with
      | .error msg => .error msg
      | .ok tail => .ok (match r with | some e => e :: tail | none => tail)

/-- Stable insertion step for the descending sort. -/
def insertDesc (e : Entry) : List Entry → List Entry
  | [] => [e]
  | x :: xs => if getF x ≤ getF e then e :: x :: xs else x :: insertDesc e xs

/-- `merged_entries.sort(key=lambda e: e.get('f', 0), reverse=True)`: the Python sort is
stable, so entries with equal frequency keep their insertion order; this insertion
sort realises exactly that order. -/
def sortDesc (l : List Entry) : List Entry := l.foldr insertDesc []

/-- `merge_dictionaries`, with file loading abstracted away: `stores` is the list of
per-file entry lists produced by `load_dictionary` (a failed load contributes `[]`),
and `all_entries` is their concatenation.  The boolean result of the script is the
`Except` constructor: `False`/`.error` only when no entries were loaded at all (or a
strategy raised); otherwise the ranked list is produced, even when empty. -/
def merge_dictionaries (stores : List (List Entry)) (strategy : String)
    (min_frequency : Int) : Except String (List Entry) :=
  let all_entries := stores.flatten
  if all_entries.isEmpty then .error "No entries loaded from input files"
  else
    match mergedEntries strategy min_frequency (word_groups all_entries) with
    | .error msg => .error msg
    | .ok merged => .ok (sortDesc merged)

end MergeDict

namespace ExtractNgrams

/-- `extract_ngrams.normalize_word`: lower, strip, lowercase accent fold, uppercase
accent fold (a no-op after lowering, kept for faithfulness), then
`re.sub(r'[^a-z]', '', word)`. -/
def normalize_word (word : String) : String :=
  ⟨(((pyStrip (word.data.map pyLower)).map foldAccentChar).map foldUpperAccentChar).filter
      isLowerAZ⟩

/-- The character class of `\w` on the modelled alphabet: ASCII alphanumerics,
underscore and the accented vowels. -/
def isWordChar (c : Char) : Bool :=
  c.isAlphanum || c = '_' ||
    ['à', 'è', 'é', 'ì', 'ò', 'ó', 'ù', 'À', 'È', 'É', 'Ì', 'Ò', 'Ó', 'Ù'].contains c

/-- Maximal `\w` runs, accumulating the current run reversed: this is
`re.findall(r'\b\w+\b', text)`. -/
def findallAux : List Char → List Char → List String
  | [], cur => if cur.isEmpty then [] else [⟨cur.reverse⟩]
  | c :: rest, cur =>
    if isWordChar c then findallAux rest (c :: cur)
    else if cur.isEmpty then findallAux rest []
    else ⟨cur.reverse⟩ :: findallAux rest []

/-- `re.findall(r'\b\w+\b', text)`. -/
def findall_words (text : String) : List String := findallAux text.data []

/-- `extract_words`: tokenize, drop falsy tokens, normalize, keep length > 1. -/
def extract_words (text : String) : List String :=
  (((findall_words text).filter (fun w => decide (w ≠ ""))).map normalize_word).filter
    (fun w => decide (1 < w.length))

/-- The bigram observations of one token list: adjacent pairs with both words
non-empty (`if word1 and word2`). -/
def bigram_obs (ws : List String) : List (String × String) :=
  (ws.zip ws.tail).filter (fun p => decide (p.1 ≠ "") && decide (p.2 ≠ ""))

/-- The trigram observations of one token list: adjacent triples with all three
words non-empty. -/
def trigram_obs (ws : List String) : List (String × String × String) :=
  (((ws.zip ws.tail).zip ws.tail.tail).map (fun p => (p.1.1, p.1.2, p.2))).filter
    (fun p => decide (p.1 ≠ "") && decide (p.2.1 ≠ "") && decide (p.2.2 ≠ ""))

/-- The accumulated bigram counter over all lines: the nested
`defaultdict(lambda: defaultdict(int))` read as a total function, an increment per
observation, absent keys reading as `0`. -/
def bigram_table (lines : List String) : String → String → Nat :=
  fun u v => ((lines.map extract_words).flatMap bigram_obs).count (u, v)

/-- The accumulated trigram counter over all lines. -/
def trigram_table (lines : List String) : String → String → String → Nat :=
  fun u v t => ((lines.map extract_words).flatMap trigram_obs).count (u, v, t)

/-- The `min_freq` filter on the bigram table; the source only filters when
`min_freq > 1`.  Dropping an inner key and pruning an emptied outer key both read
back as `0` in this functional view. -/
def filter_bigrams (min_freq : Nat) (b : String → String → Nat) : String → String → Nat :=
  if 1 < min_freq then (fun u v => if min_freq ≤ b u v then b u v else 0) else b

/-- The `min_freq` filter on the trigram table. -/
def filter_trigrams (min_freq : Nat) (t : String → String → String → Nat) :
    String → String → String → Nat :=
  if 1 < min_freq then (fun u v w => if min_freq ≤ t u v w then t u v w else 0) else t

/-- `extract_ngrams` with the input file abstracted to its line list: accumulate both
tables over the stream, then apply the threshold filter. -/
def extract_ngrams (lines : List String) (min_freq : Nat) :
    (String → String → Nat) × (String → String → String → Nat) :=
  (filter_bigrams min_freq (bigram_table lines), filter_trigrams min_freq (trigram_table lines))

end ExtractNgrams

namespace Corpora

/-- Maximal non-whitespace runs: Python `str.split()` with no separator argument
(never yields empty fields). -/
def splitWSAux : List Char → List Char → List (List Char)
  | [], cur => if cur.isEmpty then [] else [cur.reverse]
  | c :: rest, cur =>
    if pySpace c then
      if cur.isEmpty then splitWSAux rest [] else cur.reverse :: splitWSAux rest []
    else splitWSAux rest (c :: cur)

/-- `line.split()`. -/
def splitWS (l : List Char) : List (List Char) := splitWSAux l []

/-- Decimal digit run value. -/
def digitsVal (l : List Char) : Option Nat :=
  if l.isEmpty then none
  else if l.all Char.isDigit then
    some (l.foldl (fun a c => a * 10 + (c.toNat - 48)) 0)
  else none

/-- Models Python `int(s)` on the formats occurring in frequency fields: `int`
strips surrounding whitespace itself, then reads an optional sign followed by
decimal digits; anything else raises `ValueError` (`none`).
Note `int` accepts a leading minus: negative frequencies parse successfully. -/
def pyInt (s : String) : Option Int :=
  match pyStrip s.data with
  | '-' :: ds => (digitsVal ds).map (fun n => -(n : Int))
  | '+' :: ds => (digitsVal ds).map (fun n => (n : Int))
  | ds => (digitsVal ds).map (fun n => (n : Int))

/-- One iteration of the `convert_opensubtitles_to_json` loop: strip the line, skip
it when empty, split on whitespace, skip when fewer than two fields, join all but the
last field as the word, and accept exactly when `int(parts[-1])` succeeds. -/
def parse_opensubtitles_line (line : String) : Option Entry :=
  let l := pyStrip line.data
  if l.isEmpty then none
  else
    let parts := splitWS l
    if parts.length < 2 then none
    else
      match pyInt ⟨(parts.getLast?.getD [])⟩ with
      | some n => some ⟨String.intercalate " " (parts.dropLast.map (fun cs => ⟨cs⟩)), some n⟩
      | none => none

/-- `convert_opensubtitles_to_json` with I/O abstracted to the line list: a record
that fails to parse is skipped and the loop continues. -/
def convert_opensubtitles_to_json (lines : List String) : List Entry :=
  lines.filterMap parse_opensubtitles_line

/-- Python `line.split(',')`: split on every comma, keeping empty fields. -/
def splitSepAux (sep : Char) : List Char → List Char → List (List Char)
  | [], cur => [cur.reverse]
  | c :: rest, cur =>
    if c = sep then cur.reverse :: splitSepAux sep rest []
    else splitSepAux sep rest (c :: cur)

/-- `line.split(',')`. -/
def splitComma (l : List Char) : List (List Char) := splitSepAux ',' l []

/-- Python `s.strip(c)` for a single character: drop it from both ends. -/
def stripChar (c : Char) (l : List Char) : List Char :=
  ((l.dropWhile (fun x => x == c)).reverse.dropWhile (fun x => x == c)).reverse

/-- One iteration of the `convert_wikipedia_to_json` loop: strip the line and skip
it when empty; split on commas, falling back to a whitespace split when that yields
fewer than two fields, and skip when still fewer than two fields; the word is the
first field stripped of whitespace and quotes (it may be empty), and the record is
accepted exactly when `int(parts[1].strip().strip(a quote))` succeeds on the second
field — any further fields are ignored. -/
def parse_wikipedia_line (line : String) : Option Entry :=
  let l := pyStrip line.data
  if l.isEmpty then none
  else
    let parts0 := splitComma l
    let parts := if parts0.length < 2 then splitWS l else parts0
    if parts.length < 2 then none
    else
      match pyInt ⟨stripChar '"' (pyStrip (parts[1]?.getD []))⟩ with
      | some n => some ⟨⟨stripChar '"' (pyStrip (parts.headD []))⟩, some n⟩
      | none => none

/-- The record stream of `convert_wikipedia_to_json`: every data line parsed
independently, failures skipped while the loop continues. -/
def wikipedia_records (lines : List String) : List Entry :=
  lines.filterMap parse_wikipedia_line

/-- `first_line.strip().startswith(the word header)` of the Wikipedia converter. -/
def startsWithWord : List Char → Bool
  | 'w' :: 'o' :: 'r' :: 'd' :: _ => true
  | _ => false

/-- `convert_wikipedia_to_json` with I/O abstracted to the line list: the first line
is consumed as a header exactly when its stripped form starts with `word`
(otherwise the file is rewound and every line is data), and accepted records are
truncated to `limit` (the loop breaks once `limit` entries are collected). -/
def convert_wikipedia_to_json (lines : List String) (limit : Nat) : List Entry :=
  let body := match lines with
    | [] => []
    | first :: rest => if startsWithWord (pyStrip first.data) then rest else first :: rest
  (wikipedia_records body).take limit

end Corpora

/-! ### Helper lemmas about the merge engine -/

namespace MergeDict

theorem argmaxF_append (b : Entry) (l1 l2 : List Entry) :
    argmaxF b (l1 ++ l2) = argmaxF (argmaxF b l1) l2 := by
  induction l1 generalizing b with
  | nil => rfl
  | cons e t ih =>
    by_cases h : getF b < getF e <;> simp [argmaxF, h, ih]

theorem getF_le_argmaxF (b : Entry) (l : List Entry) : getF b ≤ getF (argmaxF b l) := by
  induction l generalizing b with
  | nil => exact le_refl _
  | cons e t ih =>
    by_cases h : getF b < getF e
    · simpa [argmaxF, h] using le_trans (le_of_lt h) (ih e)
    · simpa [argmaxF, h] using ih b

theorem getF_le_argmaxF_of_mem (b x : Entry) (l : List Entry) (hx : x ∈ l) :
    getF x ≤ getF (argmaxF b l) := by
  induction l generalizing b with
  | nil => cases hx
  | cons e t ih =>
    rcases List.mem_cons.mp hx with rfl | hx'
    · by_cases h : getF b < getF x
      · simpa [argmaxF, h] using getF_le_argmaxF x t
      · simpa [argmaxF, h] using le_trans (le_of_not_lt h) (getF_le_argmaxF b t)
    · by_cases h : getF b < getF e <;> simpa [argmaxF, h] using ih _ hx'

theorem argmaxF_of_le (b : Entry) (l : List Entry) (h : ∀ x ∈ l, getF x ≤ getF b) :
    argmaxF b l = b := by
  induction l with
  | nil => rfl
  | cons e t ih =>
    have he : ¬ getF b < getF e := not_lt.mpr (h e (List.mem_cons_self e t))
    simp only [argmaxF, if_neg he]
    exact ih (fun x hx => h x (List.mem_cons_of_mem _ hx))

theorem argmaxF_mem (b : Entry) (l : List Entry) : argmaxF b l ∈ b :: l := by
  induction l generalizing b with
  | nil => exact List.mem_cons_self _ _
  | cons e t ih =>
    by_cases h : getF b < getF e
    · simp only [argmaxF, if_pos h]
      exact List.mem_cons_of_mem _ (ih e)
    · simp only [argmaxF, if_neg h]
      rcases List.mem_cons.mp (ih b) with h' | h'
      · rw [h']; exact List.mem_cons_self _ _
      · exact List.mem_cons_of_mem _ (List.mem_cons_of_mem _ h')

theorem argmaxF_self_append (b : Entry) (l : List Entry) :
    argmaxF b (l ++ b :: l) = argmaxF b l := by
  rw [argmaxF_append]
  refine argmaxF_of_le _ _ ?_
  intro x hx
  rcases List.mem_cons.mp hx with rfl | hx'
  · exact getF_le_argmaxF x l
  · exact getF_le_argmaxF_of_mem b x l hx'

theorem sumF_append (l1 l2 : List Entry) : sumF (l1 ++ l2) = sumF l1 + sumF l2 := by
  simp [sumF]

theorem sumF_cons (e : Entry) (l : List Entry) : sumF (e :: l) = getF e + sumF l := by
  simp [sumF]

end MergeDict

namespace MergeDict

theorem fdiv_double (S : Int) (n : Int) (hn : 0 < n) :
    Int.fdiv (2 * S) (2 * n) = Int.fdiv S n := by
  rw [Int.fdiv_eq_ediv _ (by omega : (0:Int) ≤ 2 * n), Int.fdiv_eq_ediv _ (le_of_lt hn)]
  exact Int.mul_ediv_mul_of_pos _ _ (by omega)

theorem mem_addKey_of_mem {k : String} {acc : List String} (e : Entry) (h : k ∈ acc) :
    k ∈ addKey acc e := by
  unfold addKey
  split
  · exact h
  · split
    · exact h
    · exact List.mem_append_left _ h

theorem mem_foldl_addKey_of_mem {k : String} {acc : List String} {l : List Entry}
    (h : k ∈ acc) : k ∈ l.foldl addKey acc := by
  induction l generalizing acc with
  | nil => exact h
  | cons e t ih => exact ih (mem_addKey_of_mem e h)

theorem normalize_mem_foldl_addKey {e : Entry} {l : List Entry} (acc : List String)
    (he : e ∈ l) (hw : e.w ≠ "") : normalize_word e.w ∈ l.foldl addKey acc := by
  induction l generalizing acc with
  | nil => cases he
  | cons a t ih =>
    rcases List.mem_cons.mp he with rfl | he'
    · rw [List.foldl_cons]
      refine mem_foldl_addKey_of_mem ?_
      by_cases hmem : normalize_word e.w ∈ acc
      · exact mem_addKey_of_mem e hmem
      · simp only [addKey, if_neg hw, if_neg hmem]
        exact List.mem_append_right _ (List.mem_singleton.mpr rfl)
    · exact ih _ he'

theorem foldl_addKey_absorb {l : List Entry} {acc : List String}
    (h : ∀ e ∈ l, e.w = "" ∨ normalize_word e.w ∈ acc) : l.foldl addKey acc = acc := by
  induction l with
  | nil => rfl
  | cons a t ih =>
    have ha : addKey acc a = acc := by
      rcases h a (List.mem_cons_self a t) with hw | hm
      · simp [addKey, hw]
      · by_cases hw0 : a.w = ""
        · simp [addKey, hw0]
        · simp [addKey, hw0, hm]
    rw [List.foldl_cons, ha]
    exact ih (fun e he => h e (List.mem_cons_of_mem _ he))

theorem groupKeys_append_self (D : List Entry) : groupKeys (D ++ D) = groupKeys D := by
  rw [groupKeys, List.foldl_append]
  exact foldl_addKey_absorb (fun e he => by
    by_cases hw : e.w = ""
    · exact Or.inl hw
    · exact Or.inr (normalize_mem_foldl_addKey [] he hw))

theorem mem_foldl_addKey_cases {k : String} {l : List Entry} :
    ∀ {acc : List String}, k ∈ l.foldl addKey acc →
      k ∈ acc ∨ ∃ e ∈ l, e.w ≠ "" ∧ normalize_word e.w = k := by
  induction l with
  | nil => exact fun h => Or.inl h
  | cons a t ih =>
    intro acc h
    rw [List.foldl_cons] at h
    rcases ih h with h' | ⟨e, he, hw, hk⟩
    · unfold addKey at h'
      split at h'
      · exact Or.inl h'
      · split at h'
        · exact Or.inl h'
        · rcases List.mem_append.mp h' with h'' | h''
          · exact Or.inl h''
          · refine Or.inr ⟨a, List.mem_cons_self a t, by assumption, ?_⟩
            exact (List.mem_singleton.mp h'').symm
    · exact Or.inr ⟨e, List.mem_cons_of_mem _ he, hw, hk⟩

theorem exists_of_mem_groupKeys {k : String} {es : List Entry} (h : k ∈ groupKeys es) :
    ∃ e ∈ es, e.w ≠ "" ∧ normalize_word e.w = k := by
  rcases mem_foldl_addKey_cases h with h' | h'
  · cases h'
  · exact h'

theorem groupVal_ne_nil {k : String} {es : List Entry} (h : k ∈ groupKeys es) :
    groupVal es k ≠ [] := by
  obtain ⟨e, he, hw, hk⟩ := exists_of_mem_groupKeys h
  have : e ∈ groupVal es k := by
    refine List.mem_filter.mpr ⟨he, ?_⟩
    simp [hw, hk]
  exact List.ne_nil_of_mem this

theorem mem_of_mem_groupVal {x : Entry} {es : List Entry} {k : String}
    (h : x ∈ groupVal es k) : x ∈ es := (List.mem_filter.mp h).1

theorem groupVal_append (l1 l2 : List Entry) (k : String) :
    groupVal (l1 ++ l2) k = groupVal l1 k ++ groupVal l2 k := by
  simp [groupVal]

end MergeDict

namespace MergeDict

theorem merge_max_cons (e : Entry) (rest : List Entry) :
    merge_max_frequency (e :: rest) =
      (match (argmaxF e rest).f with
       | some v => .ok (some ⟨(argmaxF e rest).w, some v⟩)
       | none => .error "KeyError: f") := rfl

theorem resolveGroup_of_func_eq (s : String) (m : Int) (g1 g2 : List Entry)
    (h1 : 1 < g1.length) (h2 : 1 < g2.length) (hfun : mergeFunc s g1 = mergeFunc s g2) :
    resolveGroup s m g1 = resolveGroup s m g2 := by
  simp only [resolveGroup, if_pos h1, if_pos h2, hfun]

theorem entry_eta (e : Entry) (v : Int) (hv : e.f = some v) : (⟨e.w, some v⟩ : Entry) = e := by
  cases e with
  | mk w f => simp only at hv; rw [hv]

theorem resolveGroup_double_max (m : Int) (g : List Entry) (hne : g ≠ [])
    (hf : ∀ e ∈ g, e.f.isSome) :
    resolveGroup "max" m (g ++ g) = resolveGroup "max" m g := by
  match g, hne with
  | [e], _ =>
    obtain ⟨v, hv⟩ := Option.isSome_iff_exists.mp (hf e (List.mem_cons_self e []))
    have h1 : argmaxF e [e] = e := by simp [argmaxF]
    have hmax : mergeFunc "max" ([e] ++ [e]) = .ok (some e) := by
      show merge_max_frequency (e :: [e]) = .ok (some e)
      rw [merge_max_cons, h1, hv]
      show Except.ok (some (⟨e.w, some v⟩ : Entry)) = Except.ok (some e)
      rw [entry_eta e v hv]
    have hl2 : 1 < ([e] ++ [e]).length := by simp
    have hl1 : ¬ 1 < ([e] : List Entry).length := by simp
    simp only [resolveGroup, if_pos hl2, if_neg hl1, hmax]
    rfl
  | e1 :: e2 :: t, _ =>
    have harg : argmaxF e1 ((e2 :: t) ++ (e1 :: e2 :: t)) = argmaxF e1 (e2 :: t) :=
      argmaxF_self_append e1 (e2 :: t)
    have hmm : mergeFunc "max" ((e1 :: e2 :: t) ++ (e1 :: e2 :: t)) =
        mergeFunc "max" (e1 :: e2 :: t) := by
      show merge_max_frequency (e1 :: ((e2 :: t) ++ (e1 :: e2 :: t))) =
        merge_max_frequency (e1 :: (e2 :: t))
      rw [merge_max_cons, merge_max_cons, harg]
    exact resolveGroup_of_func_eq _ _ _ _ (by simp) (by simp) hmm

theorem resolveGroup_double_avg (m : Int) (g : List Entry) (hne : g ≠ [])
    (hf : ∀ e ∈ g, e.f.isSome) :
    resolveGroup "avg" m (g ++ g) = resolveGroup "avg" m g := by
  match g, hne with
  | [e], _ =>
    obtain ⟨v, hv⟩ := Option.isSome_iff_exists.mp (hf e (List.mem_cons_self e []))
    have hgf : getF e = v := by simp [getF, hv]
    have hsum : sumF ([e] ++ [e]) = 2 * getF e := by simp [sumF]; ring
    have havg : mergeFunc "avg" ([e] ++ [e]) = .ok (some e) := by
      show merge_avg_frequency (e :: [e]) = .ok (some e)
      show Except.ok (some ⟨e.w, some (Int.fdiv (sumF (e :: [e])) (((e :: [e]).length : Nat) : Int))⟩) = .ok (some e)
      rw [show sumF (e :: [e]) = sumF ([e] ++ [e]) from rfl, hsum]
      rw [show (((e :: [e]).length : Nat) : Int) = (2 : Int) from rfl]
      rw [Int.mul_fdiv_cancel_left _ (by norm_num), hgf, entry_eta e v hv]
    have hl2 : 1 < ([e] ++ [e]).length := by simp
    have hl1 : ¬ 1 < ([e] : List Entry).length := by simp
    simp only [resolveGroup, if_pos hl2, if_neg hl1, havg]
    rfl
  | e1 :: e2 :: t, _ =>
    have hsum : sumF ((e1 :: e2 :: t) ++ (e1 :: e2 :: t)) = 2 * sumF (e1 :: e2 :: t) := by
      simp [sumF]; ring
    have hlen : ((((e1 :: e2 :: t) ++ (e1 :: e2 :: t)).length : Nat) : Int) =
        2 * (((e1 :: e2 :: t).length : Nat) : Int) := by
      simp [List.length_append]; ring
    have hfd : Int.fdiv (sumF ((e1 :: e2 :: t) ++ (e1 :: e2 :: t)))
          ((((e1 :: e2 :: t) ++ (e1 :: e2 :: t)).length : Nat) : Int) =
        Int.fdiv (sumF (e1 :: e2 :: t)) ((((e1 :: e2 :: t).length : Nat) : Int)) := by
      rw [hsum, hlen]
      have hpos : 0 < (e1 :: e2 :: t).length := by simp
      exact fdiv_double _ _ (by exact_mod_cast hpos)
    have hmm : mergeFunc "avg" ((e1 :: e2 :: t) ++ (e1 :: e2 :: t)) =
        mergeFunc "avg" (e1 :: e2 :: t) := by
      show Except.ok (some ⟨e1.w, some (Int.fdiv (sumF ((e1 :: e2 :: t) ++ (e1 :: e2 :: t))) ((((e1 :: e2 :: t) ++ (e1 :: e2 :: t)).length : Nat) : Int))⟩) =
        merge_avg_frequency (e1 :: e2 :: t)
      rw [hfd]
      rfl
    exact resolveGroup_of_func_eq _ _ _ _ (by simp) (by simp) hmm

end MergeDict

namespace MergeDict

theorem mergedEntries_map_congr (s : String) (m : Int) (keys : List String)
    (f g : String → List Entry)
    (h : ∀ k ∈ keys, resolveGroup s m (f k) = resolveGroup s m (g k)) :
    mergedEntries s m (keys.map fun k => (k, f k)) =
      mergedEntries s m (keys.map fun k => (k, g k)) := by
  induction keys with
  | nil => rfl
  | cons k ks ih =>
    simp only [List.map_cons, mergedEntries]
    rw [h k (List.mem_cons_self k ks), ih (fun k' hk' => h k' (List.mem_cons_of_mem _ hk'))]

theorem word_groups_double (D : List Entry) :
    word_groups (D ++ D) =
      (groupKeys D).map (fun k => (k, groupVal D k ++ groupVal D k)) := by
  rw [word_groups, groupKeys_append_self]
  exact List.map_congr_left (fun k _ => by rw [groupVal_append])

theorem mergedEntries_double (s : String) (m : Int) (D : List Entry)
    (hres : ∀ k ∈ groupKeys D,
      resolveGroup s m (groupVal D k ++ groupVal D k) = resolveGroup s m (groupVal D k)) :
    mergedEntries s m (word_groups (D ++ D)) = mergedEntries s m (word_groups D) := by
  rw [word_groups_double]
  exact mergedEntries_map_congr s m (groupKeys D) _ _ hres

theorem merge_max_ok_of_isSome (g : List Entry) (hf : ∀ e ∈ g, e.f.isSome) :
    ∃ r, merge_max_frequency g = .ok r := by
  cases g with
  | nil => exact ⟨none, rfl⟩
  | cons e t =>
    obtain ⟨v, hv⟩ := Option.isSome_iff_exists.mp (hf _ (argmaxF_mem e t))
    rw [merge_max_cons, hv]
    exact ⟨_, rfl⟩

theorem mergeFunc_ok_of_isSome (s : String) (g : List Entry)
    (hf : ∀ e ∈ g, e.f.isSome) : ∃ r, mergeFunc s g = .ok r := by
  have hsum : ∃ r, merge_sum_frequency g = .ok r := by
    cases g with
    | nil => exact ⟨none, rfl⟩
    | cons e t => exact ⟨_, rfl⟩
  have havg : ∃ r, merge_avg_frequency g = .ok r := by
    cases g with
    | nil => exact ⟨none, rfl⟩
    | cons e t => exact ⟨_, rfl⟩
  have hwtd : ∃ r, merge_weighted_frequency g = .ok r := by
    cases g with
    | nil => exact ⟨none, rfl⟩
    | cons e t => exact ⟨_, rfl⟩
  simp only [mergeFunc]
  split_ifs
  · exact merge_max_ok_of_isSome g hf
  · exact hsum
  · exact havg
  · exact hwtd
  · exact merge_max_ok_of_isSome g hf

theorem resolveGroup_ok (s : String) (m : Int) (g : List Entry)
    (hf : ∀ e ∈ g, e.f.isSome) : ∃ r, resolveGroup s m g = .ok r := by
  simp only [resolveGroup]
  by_cases hl : 1 < g.length
  · obtain ⟨r, hr⟩ := mergeFunc_ok_of_isSome s g hf
    rw [if_pos hl, hr]
    exact ⟨_, rfl⟩
  · rw [if_neg hl]
    exact ⟨_, rfl⟩

theorem mergedEntries_ok (s : String) (m : Int) :
    ∀ gs : List (String × List Entry),
      (∀ p ∈ gs, ∀ e ∈ p.2, e.f.isSome) → ∃ l, mergedEntries s m gs = .ok l := by
  intro gs
  induction gs with
  | nil => exact fun _ => ⟨[], rfl⟩
  | cons p rest ih =>
    intro h
    obtain ⟨k, g⟩ := p
    obtain ⟨r, hr⟩ := resolveGroup_ok s m g (h (k, g) (List.mem_cons_self _ _))
    obtain ⟨l, hl⟩ := ih (fun q hq => h q (List.mem_cons_of_mem _ hq))
    refine ⟨r.elim l (fun e => e :: l), ?_⟩
    simp only [mergedEntries, hr, hl]
    cases r <;> rfl

theorem mergeFunc_unknown (s : String)
    (h : s ∉ (["max", "sum", "avg", "weighted"] : List String)) :
    mergeFunc s = merge_max_frequency := by
  simp only [List.mem_cons, List.not_mem_nil, or_false, not_or] at h
  obtain ⟨h1, h2, h3, h4⟩ := h
  simp only [mergeFunc, if_neg h1, if_neg h2, if_neg h3, if_neg h4]

theorem resolveGroup_strategy_congr (s1 s2 : String) (m : Int) (g : List Entry)
    (hfun : mergeFunc s1 = mergeFunc s2) :
    resolveGroup s1 m g = resolveGroup s2 m g := by
  simp only [resolveGroup, hfun]

theorem mergedEntries_strategy_congr (s1 s2 : String) (m : Int)
    (hfun : mergeFunc s1 = mergeFunc s2) :
    ∀ gs : List (String × List Entry), mergedEntries s1 m gs = mergedEntries s2 m gs := by
  intro gs
  induction gs with
  | nil => rfl
  | cons p rest ih =>
    obtain ⟨k, g⟩ := p
    simp only [mergedEntries, resolveGroup_strategy_congr s1 s2 m g hfun, ih]

theorem weightedSum_map_getF (es : List Entry) (ws : List ℚ) :
    weightedSum es ws = (((es.map getF).zip ws).map (fun p => ((p.1 : ℚ) * p.2))).sum := by
  induction es generalizing ws with
  | nil => rfl
  | cons e t ih =>
    cases ws with
    | nil => rfl
    | cons w ws' =>
      simp only [weightedSum] at ih
      simp [weightedSum, List.zip_cons_cons, ih ws']

theorem merge_congr_getF (es1 es2 : List Entry)
    (hmap : es1.map getF = es2.map getF)
    (hw : es1.head?.map Entry.w = es2.head?.map Entry.w) :
    merge_sum_frequency es1 = merge_sum_frequency es2 ∧
    merge_avg_frequency es1 = merge_avg_frequency es2 ∧
    merge_weighted_frequency es1 = merge_weighted_frequency es2 := by
  match es1, es2 with
  | [], [] => exact ⟨rfl, rfl, rfl⟩
  | [], e :: t => exact absurd hmap (by simp)
  | e :: t, [] => exact absurd hmap (by simp)
  | e1 :: t1, e2 :: t2 =>
    have hW : e1.w = e2.w := by simpa using hw
    have hlen : (e1 :: t1).length = (e2 :: t2).length := by
      have := congrArg List.length hmap
      simpa using this
    have hsum : sumF (e1 :: t1) = sumF (e2 :: t2) := by rw [sumF, sumF, hmap]
    refine ⟨?_, ?_, ?_⟩
    · simp only [merge_sum_frequency, hW, hsum]
    · simp only [merge_avg_frequency, hW, hsum, hlen]
    · simp only [merge_weighted_frequency, hW, hlen]
      rw [weightedSum_map_getF, weightedSum_map_getF, hmap]

end MergeDict

namespace MergeDict

theorem merge_dictionaries_double (D : List Entry) (s : String) (m : Int)
    (hres : ∀ k ∈ groupKeys D,
      resolveGroup s m (groupVal D k ++ groupVal D k) = resolveGroup s m (groupVal D k)) :
    merge_dictionaries [D, D] s m = merge_dictionaries [D] s m := by
  cases D with
  | nil => rfl
  | cons a t =>
    have hflat2 : (([a :: t, a :: t] : List (List Entry))).flatten = (a :: t) ++ (a :: t) := by
      simp
    have hflat1 : (([a :: t] : List (List Entry))).flatten = a :: t := by simp
    simp only [merge_dictionaries, hflat2, hflat1, List.cons_append, List.isEmpty_cons,
      Bool.false_eq_true, if_false]
    rw [show a :: (t ++ a :: t) = (a :: t) ++ (a :: t) from rfl,
      mergedEntries_double s m (a :: t) hres]

theorem word_groups_isSome (es : List Entry) (hf : ∀ e ∈ es, e.f.isSome) :
    ∀ p ∈ word_groups es, ∀ e ∈ p.2, e.f.isSome := by
  intro p hp e he
  obtain ⟨k, hk, rfl⟩ := List.mem_map.mp hp
  exact hf e (mem_of_mem_groupVal he)

end MergeDict

/-! ### Claims -/

/-- C1, counterexample: with one loaded entry of frequency `0` and `min_freq = 1`,
grouping succeeds but the frequency filter removes everything, and
`merge_dictionaries` still reports success with an empty output list instead of a
terminal failure. -/
theorem c1_counterexample :
    MergeDict.merge_dictionaries [[⟨"a", some 0⟩]] "max" 1 = .ok [] := by decide

/-- C1, amended: the merge run fails exactly when the combined loaded input entry
list is empty (for entries that all carry a frequency field); when min-frequency
filtering leaves nothing, the run still succeeds and produces an empty artifact. -/
theorem c1_amended_failure_iff_empty_input (stores : List (List Entry)) (s : String)
    (m : Int) (hf : ∀ e ∈ stores.flatten, e.f.isSome) :
    (∃ msg, MergeDict.merge_dictionaries stores s m = .error msg) ↔ stores.flatten = [] := by
  constructor
  · rintro ⟨msg, hmsg⟩
    by_contra hne
    have hne' : stores.flatten.isEmpty = false := by
      cases hfl : stores.flatten with
      | nil => exact absurd hfl hne
      | cons a t => rfl
    obtain ⟨l, hl⟩ := MergeDict.mergedEntries_ok s m (MergeDict.word_groups stores.flatten)
      (MergeDict.word_groups_isSome _ hf)
    simp only [MergeDict.merge_dictionaries, hne', Bool.false_eq_true, if_false, hl] at hmsg
    exact Except.noConfusion hmsg
  · intro h
    refine ⟨"No entries loaded from input files", ?_⟩
    simp [MergeDict.merge_dictionaries, h]

/-- C1, witness for the amended theorem: a store whose single entry is filtered out
is a non-failing run. -/
theorem c1_amended_witness :
    ¬ ∃ msg, MergeDict.merge_dictionaries [[⟨"a", some 0⟩]] "max" 5 = .error msg := by
  intro hE
  exact absurd ((c1_amended_failure_iff_empty_input [[⟨"a", some 0⟩]] "max" 5
    (by decide)).mp hE) (by decide)

/-- C2: merging the two-store list `[D, D]` under `max` or under `avg` gives exactly
the result of merging `[D]` alone, for every entry list `D` whose entries carry a
frequency field (the data-model invariant) and every `min_freq`. -/
theorem c2_idempotent_max_avg (D : List Entry) (m : Int)
    (hf : ∀ e ∈ D, e.f.isSome) :
    MergeDict.merge_dictionaries [D, D] "max" m = MergeDict.merge_dictionaries [D] "max" m ∧
    MergeDict.merge_dictionaries [D, D] "avg" m = MergeDict.merge_dictionaries [D] "avg" m := by
  refine ⟨?_, ?_⟩
  · exact MergeDict.merge_dictionaries_double D "max" m (fun k hk =>
      MergeDict.resolveGroup_double_max m _ (MergeDict.groupVal_ne_nil hk)
        (fun e he => hf e (MergeDict.mem_of_mem_groupVal he)))
  · exact MergeDict.merge_dictionaries_double D "avg" m (fun k hk =>
      MergeDict.resolveGroup_double_avg m _ (MergeDict.groupVal_ne_nil hk)
        (fun e he => hf e (MergeDict.mem_of_mem_groupVal he)))

/-- C2, witness: the concrete two-entry store, duplicated, merges to the same output
as the single copy under both strategies. -/
theorem c2_witness :
    MergeDict.merge_dictionaries [[⟨"Ciao", some 4⟩, ⟨"ciao", some 2⟩],
        [⟨"Ciao", some 4⟩, ⟨"ciao", some 2⟩]] "max" 1 =
      MergeDict.merge_dictionaries [[⟨"Ciao", some 4⟩, ⟨"ciao", some 2⟩]] "max" 1 ∧
    MergeDict.merge_dictionaries [[⟨"Ciao", some 4⟩, ⟨"ciao", some 2⟩],
        [⟨"Ciao", some 4⟩, ⟨"ciao", some 2⟩]] "avg" 1 =
      MergeDict.merge_dictionaries [[⟨"Ciao", some 4⟩, ⟨"ciao", some 2⟩]] "avg" 1 :=
  c2_idempotent_max_avg [⟨"Ciao", some 4⟩, ⟨"ciao", some 2⟩] 1 (by decide)

/-- C3, counterexample: `merge_dictionaries` called with the unknown strategy
`"bogus"` is not rejected: it proceeds through grouping, resolution and ranking and
produces output (the `max` fallback). -/
theorem c3_counterexample :
    MergeDict.merge_dictionaries [[⟨"a", some 5⟩]] "bogus" 1 = .ok [⟨"a", some 5⟩] := by
  decide

/-- C3, amended: the merge engine itself performs no strategy validation — any
strategy string outside `max`/`sum`/`avg`/`weighted` silently behaves exactly like
`max` (validation happens only in the CLI argument parsing, which is outside the
merge operation). -/
theorem c3_amended_unknown_strategy_is_max (stores : List (List Entry)) (s : String)
    (m : Int) (h : s ∉ (["max", "sum", "avg", "weighted"] : List String)) :
    MergeDict.merge_dictionaries stores s m = MergeDict.merge_dictionaries stores "max" m := by
  have hfun : MergeDict.mergeFunc s = MergeDict.mergeFunc "max" :=
    (MergeDict.mergeFunc_unknown s h).trans rfl
  simp only [MergeDict.merge_dictionaries,
    MergeDict.mergedEntries_strategy_congr s "max" m hfun]

/-- C3, witness for the amended theorem: `"bogus"` behaves as `max` on a concrete
two-store input. -/
theorem c3_amended_witness :
    MergeDict.merge_dictionaries [[⟨"a", some 5⟩], [⟨"A", some 9⟩]] "bogus" 1 =
      MergeDict.merge_dictionaries [[⟨"a", some 5⟩], [⟨"A", some 9⟩]] "max" 1 :=
  c3_amended_unknown_strategy_is_max [[⟨"a", some 5⟩], [⟨"A", some 9⟩]] "bogus" 1 (by decide)

/-- C4, counterexample: `merge_dictionaries.normalize_word` performs no strip of
characters outside `a`-`z`, so the canonical key of `"a1"` is `"a1"` — not a string
of basic alphabetic characters only. -/
theorem c4_counterexample :
    MergeDict.normalize_word "a1" = "a1" ∧
    ((MergeDict.normalize_word "a1").data.all isLowerAZ) = false := by decide

/-- C4, amended: the extractor version of `normalize_word` trims, lowercases, folds the fixed
accent table and strips every character outside `a`-`z` — its result is always made
of characters `a`-`z` only, and it never fails, including on the empty string.  The
merge script version of `normalize_word` performs the same trim/lowercase/accent-fold but has
no final strip, so characters outside `a`-`z` survive in its keys. -/
theorem c4_amended_normalize :
    (∀ s : String, ((ExtractNgrams.normalize_word s).data.all isLowerAZ) = true) ∧
    ExtractNgrams.normalize_word "" = "" ∧
    ExtractNgrams.normalize_word " Càfé12 " = "cafe" ∧
    MergeDict.normalize_word "  Càfé  " = "cafe" := by
  refine ⟨?_, by decide, by decide, by decide⟩
  intro s
  simp only [ExtractNgrams.normalize_word, List.all_eq_true, List.mem_filter]
  intro c hc
  exact hc.2

namespace Corpora

theorem splitWSAux_ne_nil (l : List Char) :
    ∀ (cur : List Char), ∀ t ∈ splitWSAux l cur, t ≠ [] := by
  induction l with
  | nil =>
    intro cur t ht
    by_cases hc : cur.isEmpty
    · simp [splitWSAux, hc] at ht
    · simp only [splitWSAux, hc, Bool.false_eq_true, if_false, List.mem_singleton] at ht
      subst ht
      simp only [ne_eq, List.reverse_eq_nil_iff]
      intro h0
      rw [h0] at hc
      exact hc rfl
  | cons c cs ih =>
    intro cur t ht
    by_cases hsp : pySpace c
    · by_cases hc : cur.isEmpty
      · simp only [splitWSAux, hsp, if_pos, hc, if_true] at ht
        exact ih [] t ht
      · simp only [splitWSAux, hsp, if_pos, hc, Bool.false_eq_true, if_false,
          List.mem_cons] at ht
        rcases ht with rfl | ht'
        · simp only [ne_eq, List.reverse_eq_nil_iff]
          intro h0
          rw [h0] at hc
          exact hc rfl
        · exact ih [] t ht'
    · simp only [splitWSAux, hsp, Bool.false_eq_true, if_false] at ht
      exact ih (c :: cur) t ht

theorem length_le_intercalate_go (s : String) :
    ∀ (as : List String) (acc : String), acc.length ≤ (String.intercalate.go acc s as).length := by
  intro as
  induction as with
  | nil => intro acc; exact le_refl _
  | cons a t ih =>
    intro acc
    calc acc.length ≤ (acc ++ s ++ a).length := by
          simp [String.length_append]
          omega
      _ ≤ (String.intercalate.go (acc ++ s ++ a) s t).length := ih _

theorem intercalate_cons_ne_empty (s a : String) (as : List String) (ha : a ≠ "") :
    String.intercalate s (a :: as) ≠ "" := by
  intro h0
  have h1 : a.length ≤ (String.intercalate s (a :: as)).length :=
    length_le_intercalate_go s as a
  rw [h0] at h1
  have : a.length = 0 := Nat.le_zero.mp h1
  exact ha (String.ext (by simpa [String.length] using List.length_eq_zero.mp this))

end Corpora

/-- C5, counterexample: a record whose frequency field parses as the negative
integer `-5` is accepted by both converters — acceptance does not require the
frequency to be non-negative. -/
theorem c5_counterexample :
    Corpora.parse_opensubtitles_line "foo -5" = some ⟨"foo", some (-5)⟩ ∧
    Corpora.parse_wikipedia_line "foo,-5" = some ⟨"foo", some (-5)⟩ ∧
    (-5 : Int) < 0 := by
  decide

/-- C5, amended: in both converters a record that fails to parse is silently
skipped while the load of the remaining records continues, and an accepted record
always carries a frequency that parsed as an integer — of either sign, neither
loader checks non-negativity.  The frequency field is loader-specific: the
OpenSubtitles converter reads the last whitespace-separated field and its accepted
entries always have a non-empty word; the Wikipedia converter reads the second
comma- or whitespace-separated field, so a record whose last field is not an
integer can still be accepted (`"a 5 x"`) and the accepted word may be empty
(`",5"`). -/
theorem c5_amended_accept_any_int :
    (∀ (pre post : List String) (bad : String),
      Corpora.parse_opensubtitles_line bad = none →
      Corpora.convert_opensubtitles_to_json (pre ++ bad :: post) =
        Corpora.convert_opensubtitles_to_json (pre ++ post)) ∧
    (∀ (line : String) (e : Entry), Corpora.parse_opensubtitles_line line = some e →
      (∃ n : Int, e.f = some n) ∧ e.w ≠ "") ∧
    (∀ (pre post : List String) (bad : String),
      Corpora.parse_wikipedia_line bad = none →
      Corpora.wikipedia_records (pre ++ bad :: post) =
        Corpora.wikipedia_records (pre ++ post)) ∧
    (∀ (line : String) (e : Entry), Corpora.parse_wikipedia_line line = some e →
      ∃ n : Int, e.f = some n) ∧
    Corpora.parse_wikipedia_line "a 5 x" = some ⟨"a", some 5⟩ ∧
    Corpora.parse_wikipedia_line ",5" = some ⟨"", some 5⟩ := by
  refine ⟨?_, ?_, ?_, ?_, by decide, by decide⟩
  · intro pre post bad h
    simp [Corpora.convert_opensubtitles_to_json, List.filterMap_append, List.filterMap_cons, h]
  · intro line e h
    simp only [Corpora.parse_opensubtitles_line] at h
    by_cases hemp : (pyStrip line.data).isEmpty
    · rw [if_pos hemp] at h
      exact absurd h (by simp)
    · rw [if_neg hemp] at h
      by_cases hlen : (Corpora.splitWS (pyStrip line.data)).length < 2
      · rw [if_pos hlen] at h
        exact absurd h (by simp)
      · rw [if_neg hlen] at h
        cases hint : Corpora.pyInt ⟨((Corpora.splitWS (pyStrip line.data)).getLast?.getD [])⟩ with
        | none =>
          rw [hint] at h
          simp at h
        | some n =>
          rw [hint] at h
          have he : (⟨String.intercalate " "
              (((Corpora.splitWS (pyStrip line.data)).dropLast).map (fun cs => (⟨cs⟩ : String))),
              some n⟩ : Entry) = e := Option.some.inj h
          subst he
          refine ⟨⟨n, rfl⟩, ?_⟩
          have h2 : 2 ≤ (Corpora.splitWS (pyStrip line.data)).length := not_lt.mp hlen
          cases hd : (Corpora.splitWS (pyStrip line.data)).dropLast with
          | nil =>
            exfalso
            have := congrArg List.length hd
            simp [List.length_dropLast] at this
            omega
          | cons b bs =>
            have hb : b ∈ Corpora.splitWS (pyStrip line.data) :=
              List.dropLast_subset _ (hd ▸ List.mem_cons_self b bs)
            have hbne : b ≠ [] := Corpora.splitWSAux_ne_nil (pyStrip line.data) [] b hb
            simp only [List.map_cons]
            refine Corpora.intercalate_cons_ne_empty _ _ _ ?_
            intro h0
            exact hbne (congrArg String.data h0)
  · intro pre post bad h
    simp [Corpora.wikipedia_records, List.filterMap_append, List.filterMap_cons, h]
  · intro line e h
    simp only [Corpora.parse_wikipedia_line] at h
    by_cases hemp : (pyStrip line.data).isEmpty
    · rw [if_pos hemp] at h
      exact absurd h (by simp)
    · rw [if_neg hemp] at h
      set parts := if (Corpora.splitComma (pyStrip line.data)).length < 2
          then Corpora.splitWS (pyStrip line.data)
          else Corpora.splitComma (pyStrip line.data) with hparts
      by_cases hlen : parts.length < 2
      · rw [if_pos hlen] at h
        exact absurd h (by simp)
      · rw [if_neg hlen] at h
        cases hint : Corpora.pyInt ⟨Corpora.stripChar '"' (pyStrip (parts[1]?.getD []))⟩ with
        | none =>
          rw [hint] at h
          simp at h
        | some n =>
          rw [hint] at h
          obtain rfl := Option.some.inj h
          exact ⟨n, rfl⟩

/-- C5, witness for the amended theorem: skipping a malformed middle line keeps the
other records in both converters, and the accepted records `"foo 7"` and `"c,9"`
carry integer frequencies (and, for OpenSubtitles, a non-empty word). -/
theorem c5_amended_witness :
    Corpora.convert_opensubtitles_to_json (["a 1"] ++ "nonsense" :: ["b 2"]) =
      Corpora.convert_opensubtitles_to_json (["a 1"] ++ ["b 2"]) ∧
    ((∃ n : Int, (⟨"foo", some 7⟩ : Entry).f = some n) ∧ (⟨"foo", some 7⟩ : Entry).w ≠ "") ∧
    Corpora.wikipedia_records (["a,1"] ++ "x" :: ["b,2"]) =
      Corpora.wikipedia_records (["a,1"] ++ ["b,2"]) ∧
    (∃ n : Int, (⟨"c", some 9⟩ : Entry).f = some n) :=
  ⟨c5_amended_accept_any_int.1 ["a 1"] ["b 2"] "nonsense" (by decide),
   c5_amended_accept_any_int.2.1 "foo 7" ⟨"foo", some 7⟩ (by decide),
   c5_amended_accept_any_int.2.2.1 ["a,1"] ["b,2"] "x" (by decide),
   c5_amended_accept_any_int.2.2.2.1 "c,9" ⟨"c", some 9⟩ (by decide)⟩

/-- C9, counterexample: the entry `{w: " ", f: 5}` has an empty canonical key
(its word normalizes to `""`), yet the grouping loop keeps it — only the raw
falsy-word check `if not word` runs — and it reaches the output. -/
theorem c9_counterexample :
    MergeDict.normalize_word " " = "" ∧
    MergeDict.merge_dictionaries [[⟨" ", some 5⟩]] "max" 1 = .ok [⟨" ", some 5⟩] := by
  decide

/-- C9, amended: the grouping step drops exactly the entries whose raw word is empty
(or missing); an entry whose non-empty word merely normalizes to the empty canonical
key is still grouped (under the key `""`) and can reach the output. -/
theorem c9_amended_empty_raw_word_dropped (l1 l2 : List Entry) (e : Entry)
    (hw : e.w = "") :
    MergeDict.word_groups (l1 ++ e :: l2) = MergeDict.word_groups (l1 ++ l2) := by
  have hk : MergeDict.groupKeys (l1 ++ e :: l2) = MergeDict.groupKeys (l1 ++ l2) := by
    simp [MergeDict.groupKeys, List.foldl_append, List.foldl_cons, MergeDict.addKey, hw]
  have hv : ∀ k, MergeDict.groupVal (l1 ++ e :: l2) k = MergeDict.groupVal (l1 ++ l2) k := by
    intro k
    simp [MergeDict.groupVal, List.filter_append, hw]
  simp [MergeDict.word_groups, hk, hv]

/-- C9, witness for the amended theorem: inserting an empty-word entry between two
entries of two stores leaves the grouping unchanged. -/
theorem c9_amended_witness :
    MergeDict.word_groups ([⟨"b", some 1⟩] ++ (⟨"", some 9⟩ : Entry) :: [⟨"c", some 2⟩]) =
      MergeDict.word_groups ([⟨"b", some 1⟩] ++ [⟨"c", some 2⟩]) :=
  c9_amended_empty_raw_word_dropped [⟨"b", some 1⟩] [⟨"c", some 2⟩] ⟨"", some 9⟩ rfl

/-- C10: an entry without the frequency field is treated as frequency `0`: replacing
it by an explicit `f = 0` changes none of the `sum`, `avg`, `weighted` resolutions,
and a lone such entry is silently dropped by any `min_freq ≥ 1` filter (no error is
raised), for any strategy string. -/
theorem c10_missing_frequency_as_zero (w : String) (g1 g2 : List Entry) (s : String)
    (m : Int) (hw : w ≠ "") (hm : 1 ≤ m) :
    MergeDict.merge_sum_frequency (g1 ++ (⟨w, none⟩ : Entry) :: g2) =
      MergeDict.merge_sum_frequency (g1 ++ (⟨w, some 0⟩ : Entry) :: g2) ∧
    MergeDict.merge_avg_frequency (g1 ++ (⟨w, none⟩ : Entry) :: g2) =
      MergeDict.merge_avg_frequency (g1 ++ (⟨w, some 0⟩ : Entry) :: g2) ∧
    MergeDict.merge_weighted_frequency (g1 ++ (⟨w, none⟩ : Entry) :: g2) =
      MergeDict.merge_weighted_frequency (g1 ++ (⟨w, some 0⟩ : Entry) :: g2) ∧
    MergeDict.merge_dictionaries [[⟨w, none⟩]] s m = .ok [] := by
  have hmap : (g1 ++ (⟨w, none⟩ : Entry) :: g2).map getF =
      (g1 ++ (⟨w, some 0⟩ : Entry) :: g2).map getF := by
    simp [List.map_append, getF]
  have hhead : (g1 ++ (⟨w, none⟩ : Entry) :: g2).head?.map Entry.w =
      (g1 ++ (⟨w, some 0⟩ : Entry) :: g2).head?.map Entry.w := by
    cases g1 <;> simp
  obtain ⟨h1, h2, h3⟩ := MergeDict.merge_congr_getF _ _ hmap hhead
  refine ⟨h1, h2, h3, ?_⟩
  have hme : ¬ (m ≤ (0 : Int)) := by omega
  simp [MergeDict.merge_dictionaries, MergeDict.word_groups, MergeDict.groupKeys,
    MergeDict.addKey, MergeDict.groupVal, MergeDict.mergedEntries, MergeDict.resolveGroup,
    MergeDict.sortDesc, getF, hw, hme]

/-- C10, witness: the concrete instance with `w = "a"`, a one-element tail group,
`sum` strategy and `min_freq = 1`. -/
theorem c10_witness :
    MergeDict.merge_sum_frequency ([] ++ (⟨"a", none⟩ : Entry) :: [⟨"b", some 3⟩]) =
      MergeDict.merge_sum_frequency ([] ++ (⟨"a", some 0⟩ : Entry) :: [⟨"b", some 3⟩]) ∧
    MergeDict.merge_avg_frequency ([] ++ (⟨"a", none⟩ : Entry) :: [⟨"b", some 3⟩]) =
      MergeDict.merge_avg_frequency ([] ++ (⟨"a", some 0⟩ : Entry) :: [⟨"b", some 3⟩]) ∧
    MergeDict.merge_weighted_frequency ([] ++ (⟨"a", none⟩ : Entry) :: [⟨"b", some 3⟩]) =
      MergeDict.merge_weighted_frequency ([] ++ (⟨"a", some 0⟩ : Entry) :: [⟨"b", some 3⟩]) ∧
    MergeDict.merge_dictionaries [[⟨"a", none⟩]] "sum" 1 = .ok [] :=
  c10_missing_frequency_as_zero "a" [] [⟨"b", some 3⟩] "sum" 1 (by decide) (by decide)

/-- C6: on the single line `"the cat sat the cat ran"` with `min_freq = 1`, the
extractor produces exactly the bigram counts the→cat = 2, cat→sat = 1, sat→the = 1,
cat→ran = 1 and exactly the trigram counts the→cat→sat = 1, cat→sat→the = 1,
sat→the→cat = 1, the→cat→ran = 1: both tables equal the counting functions of those
observation lists, so every other count is 0. -/
theorem c6_ngram_scenario :
    (ExtractNgrams.extract_ngrams ["the cat sat the cat ran"] 1).1 "the" "cat" = 2 ∧
    (ExtractNgrams.extract_ngrams ["the cat sat the cat ran"] 1).1 "cat" "sat" = 1 ∧
    (ExtractNgrams.extract_ngrams ["the cat sat the cat ran"] 1).1 "sat" "the" = 1 ∧
    (ExtractNgrams.extract_ngrams ["the cat sat the cat ran"] 1).1 "cat" "ran" = 1 ∧
    (ExtractNgrams.extract_ngrams ["the cat sat the cat ran"] 1).2 "the" "cat" "sat" = 1 ∧
    (ExtractNgrams.extract_ngrams ["the cat sat the cat ran"] 1).2 "cat" "sat" "the" = 1 ∧
    (ExtractNgrams.extract_ngrams ["the cat sat the cat ran"] 1).2 "sat" "the" "cat" = 1 ∧
    (ExtractNgrams.extract_ngrams ["the cat sat the cat ran"] 1).2 "the" "cat" "ran" = 1 ∧
    (ExtractNgrams.extract_ngrams ["the cat sat the cat ran"] 1).1 =
      (fun u v => ([("the", "cat"), ("cat", "sat"), ("sat", "the"), ("the", "cat"),
        ("cat", "ran")] : List (String × String)).count (u, v)) ∧
    (ExtractNgrams.extract_ngrams ["the cat sat the cat ran"] 1).2 =
      (fun u v t => ([("the", "cat", "sat"), ("cat", "sat", "the"), ("sat", "the", "cat"),
        ("the", "cat", "ran")] : List (String × String × String)).count (u, v, t)) :=
  ⟨by decide, by decide, by decide, by decide, by decide, by decide, by decide, by decide,
   rfl, rfl⟩

/-- C7: for any corpus split at a line boundary into shards `L1` and `L2`, extracting
with `min_freq = 1` from the shards and summing the tables element-wise equals
extracting from the concatenated corpus in one pass, for bigrams and trigrams. -/
theorem c7_shard_additivity (L1 L2 : List String) (u v t : String) :
    (ExtractNgrams.extract_ngrams (L1 ++ L2) 1).1 u v =
      (ExtractNgrams.extract_ngrams L1 1).1 u v + (ExtractNgrams.extract_ngrams L2 1).1 u v ∧
    (ExtractNgrams.extract_ngrams (L1 ++ L2) 1).2 u v t =
      (ExtractNgrams.extract_ngrams L1 1).2 u v t +
        (ExtractNgrams.extract_ngrams L2 1).2 u v t := by
  constructor
  · show ExtractNgrams.bigram_table (L1 ++ L2) u v =
      ExtractNgrams.bigram_table L1 u v + ExtractNgrams.bigram_table L2 u v
    simp [ExtractNgrams.bigram_table, List.map_append, List.flatMap_append, List.count_append]
  · show ExtractNgrams.trigram_table (L1 ++ L2) u v t =
      ExtractNgrams.trigram_table L1 u v t + ExtractNgrams.trigram_table L2 u v t
    simp [ExtractNgrams.trigram_table, List.map_append, List.flatMap_append, List.count_append]

/-- C8: merging the stores `[{w:"Hello", f:10}]` and `[{w:"hello", f:5}]` under the
`weighted` strategy with `min_freq = 1` yields exactly `[{w:"Hello", f:8}]`: the two
entries share one canonical key, the first member gets weight 0.6 and the second the
remaining 0.4, the merged frequency is the truncated weighted sum
`int(10*0.6 + 5*0.4) = 8`, and the casing comes from the first member. -/
theorem c8_weighted_scenario :
    MergeDict.merge_dictionaries [[⟨"Hello", some 10⟩], [⟨"hello", some 5⟩]] "weighted" 1 =
      .ok [⟨"Hello", some 8⟩] := by
  have hq : MergeDict.weightedSum [⟨"Hello", some 10⟩, ⟨"hello", some 5⟩]
      (MergeDict.defaultWeights 2) = 8 := by
    simp [MergeDict.weightedSum, MergeDict.defaultWeights, getF]
    norm_num
  have ht : MergeDict.intTrunc 8 = 8 := by
    simp [MergeDict.intTrunc]
  have hw8 : MergeDict.merge_weighted_frequency [⟨"Hello", some 10⟩, ⟨"hello", some 5⟩] =
      .ok (some ⟨"Hello", some 8⟩) := by
    show Except.ok (some (⟨"Hello", some (MergeDict.intTrunc (MergeDict.weightedSum
      [⟨"Hello", some 10⟩, ⟨"hello", some 5⟩] (MergeDict.defaultWeights
        ([⟨"Hello", some 10⟩, ⟨"hello", some 5⟩] : List Entry).length)))⟩ : Entry)) = _
    rw [show ([⟨"Hello", some 10⟩, ⟨"hello", some 5⟩] : List Entry).length = 2 from rfl,
      hq, ht]
  have hres : MergeDict.resolveGroup "weighted" 1 [⟨"Hello", some 10⟩, ⟨"hello", some 5⟩] =
      .ok (some ⟨"Hello", some 8⟩) := by
    have hmf : MergeDict.mergeFunc "weighted" = MergeDict.merge_weighted_frequency := rfl
    simp only [MergeDict.resolveGroup]
    rw [if_pos (by decide :
      1 < ([⟨"Hello", some 10⟩, ⟨"hello", some 5⟩] : List Entry).length), hmf, hw8]
    decide
  have hgroups : MergeDict.word_groups [⟨"Hello", some 10⟩, ⟨"hello", some 5⟩] =
      [("hello", [⟨"Hello", some 10⟩, ⟨"hello", some 5⟩])] := by decide
  have hmerged : MergeDict.mergedEntries "weighted" 1
      (MergeDict.word_groups [⟨"Hello", some 10⟩, ⟨"hello", some 5⟩]) =
      .ok [⟨"Hello", some 8⟩] := by
    rw [hgroups]
    simp only [MergeDict.mergedEntries, hres]
  have hflat : ([[⟨"Hello", some 10⟩], [⟨"hello", some 5⟩]] : List (List Entry)).flatten =
      [⟨"Hello", some 10⟩, ⟨"hello", some 5⟩] := by decide
  simp only [MergeDict.merge_dictionaries, hflat, List.isEmpty_cons, Bool.false_eq_true,
    if_false, hmerged]
  decide
